import Mathlib

/-!
Verification of the FlakeCache CLI dependency-graph and transfer core.

This file gives a shallow embedding, in Lean 4, of the core operations of
the FlakeCache command-line client:

* the dependency cache store (`src/cache.rs`): fingerprinting of the root
  derivation set (`hash_derivations`), persistent load/save of a
  `DependencyCache` record with the CBOR-then-JSON decode fallback and
  self-healing deletion;
* the dependency graph builder (`src/cache_warm.rs`):
  `build_graph_from_paths` and the topological-ordering part of
  `build_and_cache_graph`, including the cycle fallback;
* the chunked transfer engine (`src/chunked_download.rs`):
  chunk partitioning in `ChunkedDownloader::new`, the chunk status map,
  `reassemble_chunks`, `progress`, and the latency-driven
  `AdaptiveThrottler::adjust_concurrency`;
* the parallel batch orchestrator (`src/parallel.rs`): `upload_parallel`.

Machine integers (`u64`, `usize`) are modeled as `Nat`; the code never
relies on wrap-around in the modeled paths (the one subtraction that
could underflow, `total_size - 1`, is reached only under a `total_size > 0`
guard or inside a loop that does not run, which is itself one of the
verified claims).  `std::time::Duration` values are modeled as their exact
value in nanoseconds.  Filesystem state is modeled as a map from paths to
file contents.  External collaborators (the HTTP client, `nix-store`
queries) are parameters of the embedded functions.
-/

namespace FlakeCache

/-! ## SHA-256 (the `sha2` crate as used by `hash_derivations`)

`cache.rs` hashes the sorted derivation list with SHA-256 and keeps the
first 8 bytes.  We embed SHA-256 itself (FIPS 180-4) over byte lists
modeled as `List Nat`, all word arithmetic taken modulo `2 ^ 32`. -/

/-- Reduce a value to a 32-bit word. -/
def w32 (x : Nat) : Nat := x % 4294967296

/-- Right rotation of a 32-bit word, in arithmetic form:
the low `n` bits move to the top. -/
def rotr (n x : Nat) : Nat := x / 2 ^ n + x % 2 ^ n * 2 ^ (32 - n)

/-- Bitwise complement of a 32-bit word (`x` is kept below `2 ^ 32`
by construction everywhere this is used). -/
def not32 (x : Nat) : Nat := 4294967295 - x

/-- SHA-256 Ch function. -/
def ch (x y z : Nat) : Nat := (x &&& y) ^^^ (not32 x &&& z)

/-- SHA-256 Maj function. -/
def maj (x y z : Nat) : Nat := (x &&& y) ^^^ (x &&& z) ^^^ (y &&& z)

/-- SHA-256 big sigma 0. -/
def bigS0 (x : Nat) : Nat := rotr 2 x ^^^ rotr 13 x ^^^ rotr 22 x

/-- SHA-256 big sigma 1. -/
def bigS1 (x : Nat) : Nat := rotr 6 x ^^^ rotr 11 x ^^^ rotr 25 x

/-- SHA-256 small sigma 0. -/
def smallS0 (x : Nat) : Nat := rotr 7 x ^^^ rotr 18 x ^^^ x / 2 ^ 3

/-- SHA-256 small sigma 1. -/
def smallS1 (x : Nat) : Nat := rotr 17 x ^^^ rotr 19 x ^^^ x / 2 ^ 10

/-- The 64 SHA-256 round constants (fractional parts of cube roots of the
first 64 primes). -/
def shaK : List Nat :=
  [1116352408, 1899447441, 3049323471, 3921009573, 961987163, 1508970993,
   2453635748, 2870763221, 3624381080, 310598401, 607225278, 1426881987,
   1925078388, 2162078206, 2614888103, 3248222580, 3835390401, 4022224774,
   264347078, 604807628, 770255983, 1249150122, 1555081692, 1996064986,
   2554220882, 2821834349, 2952996808, 3210313671, 3336571891, 3584528711,
   113926993, 338241895, 666307205, 773529912, 1294757372, 1396182291,
   1695183700, 1986661051, 2177026350, 2456956037, 2730485921, 2820302411,
   3259730800, 3345764771, 3516065817, 3600352804, 4094571909, 275423344,
   430227734, 506948616, 659060556, 883997877, 958139571, 1322822218,
   1537002063, 1747873779, 1955562222, 2024104815, 2227730452, 2361852424,
   2428436474, 2756734187, 3204031479, 3329325298]

/-- Working state of the SHA-256 compression function: eight 32-bit words. -/
structure Hash8 where
  a : Nat
  b : Nat
  c : Nat
  d : Nat
  e : Nat
  f : Nat
  g : Nat
  h : Nat
deriving DecidableEq

/-- The SHA-256 initial hash value (fractional parts of square roots of
the first 8 primes). -/
def shaH0 : Hash8 :=
  ⟨1779033703, 3144134277, 1013904242, 2773480762,
   1359893119, 2600822924, 528734635, 1541459225⟩

/-- An 8-byte big-endian encoding of a natural number (used for the
message length in bits). -/
def be64 (n : Nat) : List Nat :=
  [n / 2 ^ 56 % 256, n / 2 ^ 48 % 256, n / 2 ^ 40 % 256, n / 2 ^ 32 % 256,
   n / 2 ^ 24 % 256, n / 2 ^ 16 % 256, n / 2 ^ 8 % 256, n % 256]

/-- A 4-byte big-endian encoding of a 32-bit word. -/
def be32 (n : Nat) : List Nat :=
  [n / 16777216 % 256, n / 65536 % 256, n / 256 % 256, n % 256]

/-- SHA-256 padding: append the `0x80` marker, zeros up to 56 mod 64, and
the 64-bit big-endian bit length. -/
def padMessage (msg : List Nat) : List Nat :=
  let L := msg.length
  let k := (120 - (L + 1) % 64) % 64
  msg ++ [128] ++ List.replicate k 0 ++ be64 (8 * L)

/-- Split a byte list into 64-byte blocks. -/
def chunks64 (l : List Nat) : List (List Nat) :=
  if h : l = [] then []
  else l.take 64 :: chunks64 (l.drop 64)
termination_by l.length
decreasing_by
  have hp : 0 < l.length := List.length_pos.mpr h
  simp only [List.length_drop]
  omega

/-- Group bytes into 32-bit big-endian words. -/
def bytesToWords : List Nat → List Nat
  | a :: b :: c :: d :: rest => (a * 16777216 + b * 65536 + c * 256 + d) :: bytesToWords rest
  | _ => []

/-- Extend the 16 message words of a block to the 64-entry message
schedule. -/
def schedule (w16 : List Nat) : List Nat :=
  (List.range 48).foldl
    (fun w _ =>
      let t := w.length
      w ++ [w32 (smallS1 (w.getD (t - 2) 0) + w.getD (t - 7) 0 +
                 smallS0 (w.getD (t - 15) 0) + w.getD (t - 16) 0)])
    w16

/-- One round of the SHA-256 compression function. -/
def shaRound (s : Hash8) (kw : Nat × Nat) : Hash8 :=
  let t1 := w32 (s.h + bigS1 s.e + ch s.e s.f s.g + kw.1 + kw.2)
  let t2 := w32 (bigS0 s.a + maj s.a s.b s.c)
  ⟨w32 (t1 + t2), s.a, s.b, s.c, w32 (s.d + t1), s.e, s.f, s.g⟩

/-- Process one 64-byte block. -/
def processBlock (hs : Hash8) (block : List Nat) : Hash8 :=
  let ws := schedule (bytesToWords block)
  let r := (shaK.zip ws).foldl shaRound hs
  ⟨w32 (hs.a + r.a), w32 (hs.b + r.b), w32 (hs.c + r.c), w32 (hs.d + r.d),
   w32 (hs.e + r.e), w32 (hs.f + r.f), w32 (hs.g + r.g), w32 (hs.h + r.h)⟩

/-- SHA-256 digest of a byte list, as a list of 32 bytes. -/
def sha256 (msg : List Nat) : List Nat :=
  let fin := (chunks64 (padMessage msg)).foldl processBlock shaH0
  be32 fin.a ++ be32 fin.b ++ be32 fin.c ++ be32 fin.d ++
  be32 fin.e ++ be32 fin.f ++ be32 fin.g ++ be32 fin.h

/-! ## `hash_derivations` (`src/cache.rs`, lines 124-139)

The fingerprint of the root derivation set: sort the strings, feed each
one followed by a newline byte into SHA-256, and hex-encode the first 8
digest bytes (`hex::encode(&hash_bytes[..8])`). -/

/-- Lowercase hex digit for a value below 16 (as produced by
`hex::encode`). -/
def hexDigit (n : Nat) : Char :=
  if n < 10 then Char.ofNat (48 + n) else Char.ofNat (87 + n)

/-- Lowercase hex encoding of a byte list (the `hex` crate's `encode`). -/
def hexEncode (l : List Nat) : String :=
  ⟨l.flatMap (fun b => [hexDigit (b / 16), hexDigit (b % 16)])⟩

/-- UTF-8 bytes of a string (`str::as_bytes` in Rust). -/
def strBytes (s : String) : List Nat :=
  (s.data.flatMap String.utf8EncodeChar).map (fun b => b.toNat)

/-- Sorting of a `Vec<String>` by Rust's `sort`.  Rust compares strings
byte-lexicographically; on UTF-8 data that coincides with the
code-point-lexicographic order, which is Lean's `String` order. -/
def sortStrings (l : List String) : List String :=
  l.mergeSort (fun a b => decide (a ≤ b))

/-- The serialized hash input: each sorted derivation's bytes followed by
the `b"\x5cn"` separator byte 10. -/
def hashInput (l : List String) : List Nat :=
  (sortStrings l).flatMap (fun s => strBytes s ++ [10])

/-- Embedding of `hash_derivations`: sort the derivations, hash, and keep
the first 8 bytes of the digest as lowercase hex. -/
def hash_derivations (derivations : List String) : String :=
  hexEncode ((sha256 (hashInput derivations)).take 8)

/-! ## The dependency cache store (`src/cache.rs`)

`DependencyCache` is the persisted record.  Rust's `HashMap` fields are
modeled as association lists (their iteration order plays no role in the
claims below). -/

/-- Embedding of the `DependencyCache` struct. -/
structure DependencyCache where
  created_at : Nat
  derivations_hash : String
  paths : List String
  build_order : List String
  edges : List (String × List String)
  cache_status : List (String × Bool × Nat)
deriving DecidableEq

/-- Contents of a stored cache file, at the granularity the load logic
distinguishes: bytes that the CBOR decoder accepts (exactly the CBOR
encodings produced by `save`), bytes that the JSON decoder accepts (the
compatibility path), and anything else.  The two decoders accept disjoint
byte languages: CBOR output is binary and is not valid JSON, and vice
versa. -/
inductive FileData where
  | cborBytes (r : DependencyCache)
  | jsonBytes (r : DependencyCache)
  | garbage (g : Nat)
deriving DecidableEq

/-- The `cbor::decode` collaborator: succeeds exactly on CBOR encodings. -/
def cborDecode : FileData → Option DependencyCache
  | .cborBytes r => some r
  | _ => none

/-- The `serde_json::from_slice` collaborator: succeeds exactly on JSON
encodings. -/
def jsonDecode : FileData → Option DependencyCache
  | .jsonBytes r => some r
  | _ => none

/-- The filesystem, as a map from paths to file contents. -/
def FS : Type := String → Option FileData

/-- The `fs::write` collaborator. -/
def fsWrite (fs : FS) (p : String) (d : FileData) : FS :=
  fun q => if q = p then some d else fs q

/-- The `fs::remove_file` collaborator. -/
def fsRemove (fs : FS) (p : String) : FS :=
  fun q => if q = p then none else fs q

/-- The `fs::rename` collaborator: the destination now holds the source's
contents and the source is gone (atomic replace). -/
def fsRename (fs : FS) (src dst : String) : FS :=
  fun q => if q = dst then fs src else if q = src then none else fs q

/-- The `Path::with_extension` collaborator: replace the extension of the
final path component (the part after its last dot), or append one if the
component has none. -/
def withExtension (p ext : String) : String :=
  let rev := p.data.reverse
  let pre := rev.dropWhile (fun c => decide (c ≠ '.') && decide (c ≠ '/'))
  match pre with
  | '.' :: rest => ⟨rest.reverse ++ '.' :: ext.data⟩
  | _ => ⟨p.data ++ '.' :: ext.data⟩

/-- Embedding of `DependencyCache::load` (`src/cache.rs`, lines 33-56).
Returns the `Result<Option<Self>>` value together with the filesystem
after the call (the self-healing path deletes the file).  Reading a
present file is modeled as succeeding, so the `Err` side of the result
is exactly the never-used decode-error channel. -/
def DependencyCache.load (fs : FS) (cache_path : String) :
    Except String (Option DependencyCache) × FS :=
  match fs cache_path with
  | none => (.ok none, fs)
  | some data =>
    match cborDecode data with
    | some cache => (.ok (some cache), fs)
    | none =>
      match jsonDecode data with
      | some cache => (.ok (some cache), fs)
      | none => (.ok none, fsRemove fs cache_path)

/-- Embedding of `DependencyCache::save` (`src/cache.rs`, lines 59-74):
encode as CBOR, write to the `.tmp` sibling, atomically rename over the
destination.  Directory creation has no observable effect in this model,
and the write itself is modeled as succeeding (the claims about `save`
are conditional on a successful save). -/
def DependencyCache.save (r : DependencyCache) (fs : FS) (cache_path : String) : FS :=
  let temp_path := withExtension cache_path "tmp"
  fsRename (fsWrite fs temp_path (.cborBytes r)) temp_path cache_path

/-- Embedding of `DependencyCache::is_valid`. -/
def DependencyCache.is_valid (r : DependencyCache) (current : String) : Bool :=
  r.derivations_hash == current

/-! ## The dependency graph builder (`src/cache_warm.rs`)

`build_graph_from_paths` (lines 479-518) inserts every distinct store
path as a node of a `petgraph::Graph` and, for each node `path` and each
`dep` in `get_references(path)` that is itself a node, adds the edge
`dep_idx -> node_idx` ("dep must be built/downloaded before path").
Nodes are indexed by insertion position.  Rust iterates a `HashSet` in
an unspecified order; we fix the insertion order `paths.eraseDups`
(first-occurrence order) — every property proved below is insensitive to
that choice, and the concrete counterexample graphs have a forced result
under any enumeration order.

`petgraph::algo::toposort` returns, for an acyclic graph, an order in
which every node appears before its successors (so, with the edge
direction above, dependencies appear before dependents), and reports an
error on a cyclic graph.  We embed it as Kahn's algorithm: repeatedly
emit a node of the remaining subgraph that has no incoming edge from a
remaining node. -/

/-- A node `v` has no incoming edge from the remaining node set. -/
def noIncoming (edges : List (Nat × Nat)) (remaining : List Nat) (v : Nat) : Bool :=
  edges.all (fun e => !(e.2 == v && remaining.contains e.1))

/-- Kahn's algorithm, fueled by the node count: emit an in-degree-zero
node of the remaining subgraph until none is left; report `none` (the
`Err(Cycle)` of `petgraph`) if stuck with nodes remaining. -/
def kahnAux (edges : List (Nat × Nat)) : Nat → List Nat → List Nat → Option (List Nat)
  | 0, remaining, acc => if remaining.isEmpty then some acc else none
  | fuel + 1, remaining, acc =>
    match remaining.find? (noIncoming edges remaining) with
    | some v => kahnAux edges fuel (remaining.erase v) (acc ++ [v])
    | none => if remaining.isEmpty then some acc else none

/-- Embedding of `petgraph::algo::toposort` on a graph with nodes
`0, ..., numNodes - 1`: `some order` with every edge source before its
target for an acyclic graph, `none` on a cycle. -/
def toposort (numNodes : Nat) (edges : List (Nat × Nat)) : Option (List Nat) :=
  kahnAux edges numNodes (List.range numNodes) []

/-- Embedding of `build_graph_from_paths`: the node list (distinct store
paths) and the edge list `(dep_idx, node_idx)`, with the per-path direct
references supplied by the `get_references` collaborator (`nix-store
--query --references`). -/
def buildGraphFromPaths (paths : List String) (refs : String → List String) :
    List String × List (Nat × Nat) :=
  let nodes := paths.eraseDups
  let edges := nodes.flatMap (fun path =>
    (refs path).filterMap (fun dep =>
      if dep ∈ nodes then some (nodes.indexOf dep, nodes.indexOf path) else none))
  (nodes, edges)

/-- Embedding of the ordering part of `build_and_cache_graph`
(`src/cache_warm.rs`, lines 412-432): topologically sort; on a cycle,
print a warning (the returned flag) and fall back to
`graph.node_indices().collect()`; then **reverse** the order and map the
indices back to store paths.  The returned flag is `true` exactly when
the cycle-warning branch ran. -/
def buildOrderAndWarn (nodes : List String) (edges : List (Nat × Nat)) :
    List String × Bool :=
  match toposort nodes.length edges with
  | some order => ((order.reverse).filterMap (fun i => nodes[i]?), false)
  | none => (((List.range nodes.length).reverse).filterMap (fun i => nodes[i]?), true)

/-- Composition of `build_graph_from_paths` with the ordering logic of
`build_and_cache_graph`: from discovered paths to the cached
`ordered_paths` build order plus the cycle-warning flag. -/
def buildAndCacheGraphOrder (paths : List String) (refs : String → List String) :
    List String × Bool :=
  let g := buildGraphFromPaths paths refs
  buildOrderAndWarn g.1 g.2

/-- A nonempty node sequence whose consecutive elements (cyclically) are
all edges of the graph: a directed cycle. -/
def IsCycle (edges : List (Nat × Nat)) (l : List Nat) : Prop :=
  l ≠ [] ∧ ∀ i, i < l.length → (l.getD i 0, l.getD ((i + 1) % l.length) 0) ∈ edges

/-- A graph contains a directed cycle. -/
def HasCycle (edges : List (Nat × Nat)) : Prop :=
  ∃ l, IsCycle edges l

/-! ## The chunked transfer engine (`src/chunked_download.rs`)

`ChunkedDownloader::new` fixes `CHUNK_SIZE = 4_194_304` bytes and
computes `num_chunks = (total_size + CHUNK_SIZE - 1) / CHUNK_SIZE`
(in `u64`, so the addition happens before the subtraction and cannot
underflow).  The download loop derives, for chunk `i`, the inclusive
byte range `start = i * chunk_size`,
`end = min(start + chunk_size - 1, total_size - 1)` (lines 159-162). -/

/-- The fixed 4 MB chunk size from `ChunkedDownloader::new`. -/
def CHUNK_SIZE : Nat := 4194304

/-- Embedding of the `num_chunks` computation in `ChunkedDownloader::new`. -/
def numChunks (total_size : Nat) : Nat :=
  (total_size + CHUNK_SIZE - 1) / CHUNK_SIZE

/-- The `start` offset of chunk `chunk_idx` in the download loop. -/
def chunkStart (chunk_idx : Nat) : Nat := chunk_idx * CHUNK_SIZE

/-- The inclusive `end` offset of chunk `chunk_idx` in the download loop
(only evaluated for `total_size > 0`, since the loop body runs only when
`num_chunks > 0`). -/
def chunkEnd (total_size chunk_idx : Nat) : Nat :=
  min (chunkStart chunk_idx + CHUNK_SIZE - 1) (total_size - 1)

/-- The byte length of chunk `chunk_idx` (`end - start + 1`). -/
def chunkLen (total_size chunk_idx : Nat) : Nat :=
  chunkEnd total_size chunk_idx - chunkStart chunk_idx + 1

/-- The chunk ranges the download loop iterates over: one
`(start, end)` pair per `chunk_idx in 0..num_chunks`.  For
`total_size = 0` this list is empty, so the `total_size - 1` in
`chunkEnd` (a `u64` underflow in Rust) is never evaluated. -/
def chunkRanges (total_size : Nat) : List (Nat × Nat) :=
  (List.range (numChunks total_size)).map
    (fun i => (chunkStart i, chunkEnd total_size i))

/-- Embedding of `ChunkedDownloader::progress` (lines 340-347): percent
downloaded, guarding the division by `total_size`. -/
def progress (total_size bytes_downloaded : Nat) : Nat :=
  if total_size > 0 then bytes_downloaded * 100 / total_size else 0

/-- The `ChunkStatus` enum of `src/chunked_download.rs`. -/
inductive ChunkStatus where
  | pending
  | downloading
  | completed (data : List Nat)
  | failed (err : String)
deriving DecidableEq

/-- The chunk status map `chunks: HashMap<usize, ChunkStatus>`, read at
indexes `0..num_chunks` which `new` initializes to `Pending`. -/
def ChunkMap : Type := Nat → ChunkStatus

/-- The map as initialized by `ChunkedDownloader::new`: every chunk
`Pending`. -/
def initChunks : ChunkMap := fun _ => .pending

/-- A chunk-completion event: the worker for `chunk_idx` inserts
`ChunkStatus::Completed(payload)` into the map (line 244). -/
def completeChunk (m : ChunkMap) (chunk_idx : Nat) (data : List Nat) : ChunkMap :=
  fun j => if j = chunk_idx then .completed data else m j

/-- The chunk map after a sequence of completion events, applied in the
order the chunks happened to finish. -/
def applyCompletions (m : ChunkMap) (events : List (Nat × List Nat)) : ChunkMap :=
  events.foldl (fun m e => completeChunk m e.1 e.2) m

/-- Bytes of completed-chunk payloads retained in the in-memory chunk
map (the `Vec<u8>` inside each `ChunkStatus::Completed`). -/
def memUsage (num_chunks : Nat) (m : ChunkMap) : Nat :=
  ((List.range num_chunks).map (fun i =>
    match m i with
    | .completed data => data.length
    | _ => 0)).sum

/-- A seek-then-write at an absolute byte offset
(`file.seek(SeekFrom::Start(pos)); file.write_all(data)`): the file is
zero-extended up to `off` if it is shorter, and `data` overwrites the
bytes at `[off, off + data.length)`. -/
def writeAt (file : List Nat) (off : Nat) (data : List Nat) : List Nat :=
  let file := if file.length < off then file ++ List.replicate (off - file.length) 0 else file
  file.take off ++ data ++ file.drop (off + data.length)

/-- The loop body of `reassemble_chunks` over the index list: write each
completed chunk's payload at its absolute offset
`chunk_idx * chunk_size`; fail on the first chunk that is `Failed` or
not completed. -/
def reassembleGo (chunk_size : Nat) (m : ChunkMap) (file : List Nat) :
    List Nat → Except String (List Nat)
  | [] => .ok file
  | chunk_idx :: rest =>
    match m chunk_idx with
    | .completed data =>
      reassembleGo chunk_size m (writeAt file (chunk_idx * chunk_size) data) rest
    | .failed err => .error ("Chunk " ++ toString chunk_idx ++ " failed: " ++ err)
    | _ => .error ("Chunk " ++ toString chunk_idx ++ " not completed")

/-- Embedding of `ChunkedDownloader::reassemble_chunks` (lines 307-337):
iterate `chunk_idx in 0..num_chunks` over a fresh output file. -/
def reassembleChunks (num_chunks chunk_size : Nat) (m : ChunkMap) :
    Except String (List Nat) :=
  reassembleGo chunk_size m [] (List.range num_chunks)

/-! ## The adaptive congestion controller
(`AdaptiveThrottler::adjust_concurrency`, lines 367-414)

This is the adjuster the periodic task spawned by
`ChunkedDownloader::download` actually runs (via
`clone_for_adjustment`).  Latencies are nanosecond counts, most recent
last.  `recent.iter().sum::<Duration>() / recent.len() as u32` divides
with nanosecond precision, i.e. truncating `Nat` division here.
`*baseline * 2` is exact; the `*baseline * 1.5` comparison is embedded
exactly as `2 * avg < 3 * baseline`.  The 20% shrink
`(current as f64 * 0.8) as usize` equals `current * 4 / 5` for every
`current` in the reachable range (the `f64` product of an integer below
`2 ^ 50` with 0.8 never rounds across an integer boundary). -/

/-- The shared state of `AdaptiveThrottler`. -/
structure ThrottlerState where
  latencies : List Nat
  baseline_latency : Option Nat
  max_concurrent : Nat
deriving DecidableEq

/-- Average of the last 20 latency samples, truncated to whole
nanoseconds. -/
def recentAvg (latencies : List Nat) : Nat :=
  let recent := latencies.reverse.take 20
  recent.sum / recent.length

/-- Embedding of `AdaptiveThrottler::adjust_concurrency`: no-op below 10
samples; otherwise set the baseline on first use
(`get_or_insert_with`), shrink by 20% toward the floor of 5 when the
recent average exceeds twice the baseline, grow by 5 toward the ceiling
of 500 when it is below 1.5 times the baseline, and hold otherwise. -/
def adjustConcurrency (st : ThrottlerState) : ThrottlerState :=
  if st.latencies.length < 10 then st
  else
    let avg := recentAvg st.latencies
    let baseline := st.baseline_latency.getD avg
    let st1 : ThrottlerState :=
      { st with baseline_latency := some baseline }
    if baseline * 2 < avg then
      if 5 < st1.max_concurrent then
        { st1 with max_concurrent := max 5 (st1.max_concurrent * 4 / 5) }
      else st1
    else if 2 * avg < 3 * baseline then
      if st1.max_concurrent < 500 then
        { st1 with max_concurrent := min 500 (st1.max_concurrent + 5) }
      else st1
    else st1

/-! ## The parallel batch orchestrator (`src/parallel.rs`)

`upload_parallel` maps every task to exactly one `UploadResult` through
a `match` that converts the three possible awaited outcomes — `Ok(Ok)`,
`Ok(Err)` from the upload itself, and `Err` from
`tokio::time::timeout` — into a result value; no outcome propagates as
an error of the batch.  `buffer_unordered` yields the results in task
completion order, so the returned list is some permutation of the
per-task results; the embedded function produces them in task order and
the theorems quantify over an arbitrary permutation of it. -/

/-- The resolved outcome of awaiting one task with a timeout. -/
inductive TaskOutcome where
  | ok
  | err (msg : String)
  | timeout
deriving DecidableEq

/-- The `UploadTask` struct. -/
structure UploadTask where
  store_path : String
  cache_name : String
  api_url : String
  token : String
deriving DecidableEq

/-- The `UploadResult` struct. -/
structure UploadResult where
  store_path : String
  success : Bool
  error : Option String
  duration_secs : Nat
deriving DecidableEq

/-- The `match` in `upload_parallel` building one task's `UploadResult`
from its own awaited outcome (lines 84-111). -/
def mkUploadResult (timeout_secs : Nat) (task : UploadTask) (o : TaskOutcome)
    (dur : Nat) : UploadResult :=
  match o with
  | .ok => ⟨task.store_path, true, none, dur⟩
  | .err e => ⟨task.store_path, false, some e, dur⟩
  | .timeout =>
    ⟨task.store_path, false,
     some ("Upload timeout (>" ++ toString timeout_secs ++ " secs)"), dur⟩

/-- Embedding of `upload_parallel` (lines 50-158), with each task's
outcome and measured duration supplied by collaborator functions: the
empty batch short-circuits to `[]`; otherwise every task yields exactly
its own result. -/
def uploadParallel (timeout_secs : Nat) (tasks : List UploadTask)
    (outcome : UploadTask → TaskOutcome) (dur : UploadTask → Nat) :
    List UploadResult :=
  if tasks.isEmpty then []
  else tasks.map (fun t => mkUploadResult timeout_secs t (outcome t) (dur t))

/-! ## Helper lemmas -/

/-- Hex encoding yields two characters per input byte. -/
theorem hexEncode_length (l : List Nat) : (hexEncode l).length = 2 * l.length := by
  have key : ∀ t : List Nat,
      (t.flatMap fun b => [hexDigit (b / 16), hexDigit (b % 16)]).length = 2 * t.length := by
    intro t
    induction t with
    | nil => rfl
    | cons a s ih =>
      simp only [List.flatMap_cons, List.length_append, List.length_cons, List.length_nil, ih]
      omega
  exact key l

/-- A SHA-256 digest has 32 bytes. -/
theorem sha256_length (msg : List Nat) : (sha256 msg).length = 32 := by
  simp [sha256, be32]

/-- Rust's `sort` on a string vector is a function of the input multiset:
permuted inputs sort to the same list. -/
theorem sortStrings_eq_of_perm {l l' : List String} (h : l.Perm l') :
    sortStrings l = sortStrings l' :=
  List.eq_of_perm_of_sorted
    ((List.mergeSort_perm l _).trans (h.trans (List.mergeSort_perm l' _).symm))
    (List.sorted_mergeSort' l) (List.sorted_mergeSort' l')

/-- The empty-batch branch and the general branch of `upload_parallel`
agree: every batch maps each task to its own result. -/
theorem uploadParallel_eq_map (timeout_secs : Nat) (tasks : List UploadTask)
    (outcome : UploadTask → TaskOutcome) (dur : UploadTask → Nat) :
    uploadParallel timeout_secs tasks outcome dur
      = tasks.map (fun t => mkUploadResult timeout_secs t (outcome t) (dur t)) := by
  cases tasks <;> simp [uploadParallel]

/-- The bytes of a file at offsets `[off, off + len)`. -/
def sliceAt (file : List Nat) (off len : Nat) : List Nat :=
  (file.drop off).take len

/-- Two completion events for distinct chunks commute on the chunk map. -/
theorem completeChunk_comm (m : ChunkMap) (a b : Nat) (da db : List Nat)
    (hab : a ≠ b) :
    completeChunk (completeChunk m a da) b db
      = completeChunk (completeChunk m b db) a da := by
  funext j
  simp only [completeChunk]
  by_cases hja : j = a <;> by_cases hjb : j = b <;> simp_all

/-- The chunk map is a function of the set of completion events: applying
them in any order (no chunk completes twice) yields the same map. -/
theorem applyCompletions_perm {ev ev' : List (Nat × List Nat)}
    (hperm : ev.Perm ev') :
    ∀ init : ChunkMap, (ev.map Prod.fst).Nodup →
      applyCompletions init ev = applyCompletions init ev' := by
  induction hperm with
  | nil => intro init _; rfl
  | cons x l ih =>
    intro init hnd
    simp only [List.map_cons, List.nodup_cons] at hnd
    exact ih (completeChunk init x.1 x.2) hnd.2
  | swap x y l =>
    intro init hnd
    simp only [List.map_cons, List.nodup_cons, List.mem_cons] at hnd
    have hxy : y.1 ≠ x.1 := fun hh => hnd.1 (Or.inl hh)
    show applyCompletions (completeChunk (completeChunk init y.1 y.2) x.1 x.2) l
      = applyCompletions (completeChunk (completeChunk init x.1 x.2) y.1 y.2) l
    rw [completeChunk_comm init y.1 x.1 y.2 x.2 hxy]
  | trans h12 h23 ih12 ih23 =>
    intro init hnd
    rw [ih12 init hnd]
    exact ih23 init (((h12.map Prod.fst).nodup_iff).mp hnd)

/-- Every `Completed` value in the chunk map after a run came from one of
the completion events (the initial map holds no completed chunk). -/
theorem applyCompletions_completed_mem (ev : List (Nat × List Nat)) :
    ∀ (init : ChunkMap) (i : Nat) (data : List Nat),
      applyCompletions init ev i = .completed data →
      (i, data) ∈ ev ∨ init i = .completed data := by
  induction ev with
  | nil => intro init i data h; exact Or.inr h
  | cons e es ih =>
    intro init i data h
    rcases ih (completeChunk init e.1 e.2) i data h with hmem | hinit
    · exact Or.inl (List.mem_cons_of_mem _ hmem)
    · by_cases hie : i = e.1
      · subst hie
        have hde : e.2 = data := by simpa [completeChunk] using hinit
        refine Or.inl ?_
        have : (e.1, data) = e := by rw [← hde]
        rw [this]
        exact List.mem_cons_self _ _
      · simp only [completeChunk, if_neg hie] at hinit
        exact Or.inr hinit

/-- A seek-write at an offset at or past the end of the file appends,
after zero-padding the gap. -/
theorem writeAt_of_le (file : List Nat) (off : Nat) (data : List Nat)
    (h : file.length ≤ off) :
    writeAt file off data
      = file ++ List.replicate (off - file.length) 0 ++ data := by
  simp only [writeAt]
  split_ifs with hlt
  · have hfull : (file ++ List.replicate (off - file.length) 0).length = off := by
      simp; omega
    have hdrop : (file ++ List.replicate (off - file.length) 0).drop (off + data.length) = [] :=
      List.drop_eq_nil_of_le (by rw [hfull]; omega)
    rw [List.take_of_length_le (le_of_eq hfull), hdrop]
    simp
  · have heq : file.length = off := by omega
    have hdrop : file.drop (off + data.length) = [] :=
      List.drop_eq_nil_of_le (by omega)
    rw [List.take_of_length_le (by omega), hdrop]
    have hz : off - file.length = 0 := by omega
    simp [hz]

/-- The reassembly loop over indices `k, k + 1, ...` with a file of
length at most `k * chunk_size` appends each completed payload in turn,
placing the payload of chunk `i` exactly at offsets
`[i * chunk_size, i * chunk_size + payload.length)` of its output. -/
theorem reassembleGo_spec (cs : Nat) (m : ChunkMap)
    (hcs : ∀ i data, m i = .completed data → data.length ≤ cs) :
    ∀ (cnt k : Nat) (file out : List Nat), file.length ≤ k * cs →
      reassembleGo cs m file (List.range' k cnt) = .ok out →
      (∃ rest, out = file ++ rest)
      ∧ ∀ i, i ∈ List.range' k cnt → ∀ data, m i = .completed data →
          sliceAt out (i * cs) data.length = data := by
  intro cnt
  induction cnt with
  | zero =>
    intro k file out _ hrun
    simp only [List.range', reassembleGo, Except.ok.injEq] at hrun
    subst hrun
    exact ⟨⟨[], by simp⟩, fun i hi => by simp [List.range'] at hi⟩
  | succ n ih =>
    intro k file out hfile hrun
    rw [List.range'_succ] at hrun
    simp only [reassembleGo] at hrun
    cases hm : m k with
    | completed data =>
      rw [hm] at hrun
      dsimp only at hrun
      have hlen : data.length ≤ cs := hcs k data hm
      have hw : writeAt file (k * cs) data
          = file ++ List.replicate (k * cs - file.length) 0 ++ data :=
        writeAt_of_le file (k * cs) data hfile
      have hexp : (k + 1) * cs = k * cs + cs := by ring
      have hnext : (writeAt file (k * cs) data).length ≤ (k + 1) * cs := by
        rw [hw, hexp]
        simp only [List.length_append, List.length_replicate]
        omega
      obtain ⟨⟨rest, hrest⟩, hprops⟩ := ih (k + 1) (writeAt file (k * cs) data) out hnext hrun
      constructor
      · refine ⟨List.replicate (k * cs - file.length) 0 ++ data ++ rest, ?_⟩
        rw [hrest, hw]; simp
      · intro i hi d hd
        rw [List.range'_succ, List.mem_cons] at hi
        rcases hi with hik | hitail
        · subst hik
          have hdd : d = data := by
            have h2 := hd.symm.trans hm
            injection h2
          subst hdd
          rw [hrest, hw]
          set pre := file ++ List.replicate (i * cs - file.length) 0 with hpre_def
          have hpre : pre.length = i * cs := by
            rw [hpre_def]; simp; omega
          show (((pre ++ d) ++ rest).drop (i * cs)).take d.length = d
          rw [List.append_assoc pre d rest, ← hpre, List.drop_left, List.take_left]
        · exact hprops i hitail d hd
    | pending =>
      rw [hm] at hrun
      dsimp only at hrun
      exact absurd hrun (by simp)
    | downloading =>
      rw [hm] at hrun
      dsimp only at hrun
      exact absurd hrun (by simp)
    | failed e =>
      rw [hm] at hrun
      dsimp only at hrun
      exact absurd hrun (by simp)

/-- Invariant proof for Kahn's algorithm: a successful run emits a
permutation of the node pool in which, for every edge, the source's
position precedes the target's.  The invariants carried: the emitted
prefix and the remaining pool are disjoint and duplicate-free, edges
with an emitted target have an emitted source at a smaller position,
and every edge source is somewhere in the pool. -/
theorem kahnAux_spec (edges : List (Nat × Nat)) :
    ∀ (fuel : Nat) (remaining acc order : List Nat),
      kahnAux edges fuel remaining acc = some order →
      (acc ++ remaining).Nodup →
      (∀ e ∈ edges, e.2 ∈ acc → e.1 ∈ acc ∧ acc.indexOf e.1 < acc.indexOf e.2) →
      (∀ e ∈ edges, e.1 ∈ acc ∨ e.1 ∈ remaining) →
      order.Perm (acc ++ remaining)
      ∧ ∀ e ∈ edges, e.2 ∈ order → e.1 ∈ order ∧ order.indexOf e.1 < order.indexOf e.2 := by
  intro fuel
  induction fuel with
  | zero =>
    intro remaining acc order hrun hnd hacc hsrc
    simp only [kahnAux] at hrun
    split_ifs at hrun with hemp
    · obtain rfl : remaining = [] := List.isEmpty_iff.mp hemp
      obtain rfl : acc = order := by injection hrun
      exact ⟨by simp, fun e he h2 => hacc e he h2⟩
  | succ fuel ih =>
    intro remaining acc order hrun hnd hacc hsrc
    rw [kahnAux] at hrun
    cases hfind : remaining.find? (noIncoming edges remaining) with
    | none =>
      rw [hfind] at hrun
      split_ifs at hrun with hemp
      · obtain rfl : remaining = [] := List.isEmpty_iff.mp hemp
        obtain rfl : acc = order := by injection hrun
        exact ⟨by simp, fun e he h2 => hacc e he h2⟩
    | some v =>
      rw [hfind] at hrun
      have hv : v ∈ remaining := List.mem_of_find?_eq_some hfind
      have hvno : noIncoming edges remaining v = true := List.find?_some hfind
      have hvnotacc : v ∉ acc := by
        intro hmem
        exact (List.nodup_append.mp hnd).2.2 hmem hv
      have hstep : ((acc ++ [v]) ++ remaining.erase v).Perm (acc ++ remaining) := by
        rw [List.append_assoc]
        exact List.Perm.append_left acc
          (List.Perm.symm (by simpa using List.perm_cons_erase hv))
      have hnd' : ((acc ++ [v]) ++ remaining.erase v).Nodup :=
        hstep.nodup_iff.mpr hnd
      have hacc' : ∀ e ∈ edges, e.2 ∈ acc ++ [v] →
          e.1 ∈ acc ++ [v]
          ∧ (acc ++ [v]).indexOf e.1 < (acc ++ [v]).indexOf e.2 := by
        intro e he hmem
        rcases List.mem_append.mp hmem with h2acc | h2v
        · obtain ⟨h1acc, hidx⟩ := hacc e he h2acc
          refine ⟨List.mem_append_left _ h1acc, ?_⟩
          rw [List.indexOf_append_of_mem h1acc, List.indexOf_append_of_mem h2acc]
          exact hidx
        · have h2v : e.2 = v := by simpa using h2v
          have h1notrem : e.1 ∉ remaining := by
            have hall := List.all_eq_true.mp hvno e he
            simpa [h2v] using hall
          have h1acc : e.1 ∈ acc := (hsrc e he).resolve_right h1notrem
          refine ⟨List.mem_append_left _ h1acc, ?_⟩
          rw [List.indexOf_append_of_mem h1acc, h2v,
            List.indexOf_append_of_not_mem hvnotacc, List.indexOf_cons_self]
          have := List.indexOf_lt_length.mpr h1acc
          omega
      have hsrc' : ∀ e ∈ edges, e.1 ∈ acc ++ [v] ∨ e.1 ∈ remaining.erase v := by
        intro e he
        rcases hsrc e he with h | h
        · exact Or.inl (List.mem_append_left _ h)
        · by_cases hev : e.1 = v
          · exact Or.inl (List.mem_append_right _ (by simp [hev]))
          · exact Or.inr ((List.mem_erase_of_ne hev).mpr h)
      obtain ⟨hperm, hprop⟩ := ih (remaining.erase v) (acc ++ [v]) order hrun hnd' hacc' hsrc'
      exact ⟨hperm.trans hstep, hprop⟩

/-- On an acyclic graph (a successful sort), `toposort` returns a
permutation of all nodes in which every edge's source precedes its
target. -/
theorem toposort_topo (n : Nat) (edges : List (Nat × Nat)) (order : List Nat)
    (hends : ∀ e ∈ edges, e.1 < n ∧ e.2 < n)
    (htop : toposort n edges = some order) :
    order.Perm (List.range n)
    ∧ ∀ e ∈ edges, order.indexOf e.1 < order.indexOf e.2 := by
  obtain ⟨hperm, hprop⟩ := kahnAux_spec edges n (List.range n) [] order htop
    (by simpa using List.nodup_range n)
    (by simp)
    (fun e he => Or.inr (List.mem_range.mpr (hends e he).1))
  have hperm' : order.Perm (List.range n) := by simpa using hperm
  refine ⟨hperm', fun e he => (hprop e he ?_).2⟩
  exact hperm'.mem_iff.mpr (List.mem_range.mpr (hends e he).2)

/-- On a graph containing a directed cycle, `toposort` reports failure
(as `petgraph::algo::toposort` does): a successful order would have to
be strictly increasing in position around the cycle. -/
theorem toposort_none_of_hasCycle (n : Nat) (edges : List (Nat × Nat))
    (hends : ∀ e ∈ edges, e.1 < n ∧ e.2 < n)
    (hcyc : HasCycle edges) : toposort n edges = none := by
  cases htop : toposort n edges with
  | none => rfl
  | some order =>
    exfalso
    obtain ⟨l, hl0, hl⟩ := hcyc
    obtain ⟨hperm, hprop⟩ := toposort_topo n edges order hends htop
    have hlen : 0 < l.length := List.length_pos.mpr hl0
    have mono : ∀ j, j < l.length →
        order.indexOf (l.getD 0 0) ≤ order.indexOf (l.getD j 0) := by
      intro j
      induction j with
      | zero => intro _; exact le_refl _
      | succ k ihk =>
        intro hj
        have hk : k < l.length := by omega
        have hedge := hl k hk
        rw [Nat.mod_eq_of_lt hj] at hedge
        exact le_trans (ihk hk) (le_of_lt (hprop _ hedge))
    have hlast := hl (l.length - 1) (by omega)
    have hmod : (l.length - 1 + 1) % l.length = 0 := by
      have h1 : l.length - 1 + 1 = l.length := by omega
      rw [h1, Nat.mod_self]
    rw [hmod] at hlast
    have h2 := hprop _ hlast
    dsimp only at h2
    have h3 := mono (l.length - 1) (by omega)
    omega

/-- Reading every index of a list back through `getElem?` recovers the
list. -/
theorem filterMap_getElem_range (l : List String) :
    (List.range l.length).filterMap (fun i => l[i]?) = l := by
  induction l with
  | nil => rfl
  | cons a t ih =>
    rw [List.length_cons, List.range_succ_eq_map, List.filterMap_cons]
    simp only [List.getElem?_cons_zero, List.filterMap_map]
    have : (List.filterMap ((fun i => (a :: t)[i]?) ∘ Nat.succ) (List.range t.length))
        = List.filterMap (fun i => t[i]?) (List.range t.length) := by
      apply List.filterMap_congr
      intro i _
      simp [Function.comp]
    rw [this, ih]

/-- Every edge produced by `build_graph_from_paths` has both endpoints
among the node indexes. -/
theorem buildGraphFromPaths_edges_lt (paths : List String) (refs : String → List String) :
    ∀ e ∈ (buildGraphFromPaths paths refs).2,
      e.1 < (buildGraphFromPaths paths refs).1.length
      ∧ e.2 < (buildGraphFromPaths paths refs).1.length := by
  intro e he
  simp only [buildGraphFromPaths, List.mem_flatMap, List.mem_filterMap] at he
  obtain ⟨path, hpath, dep, hdep, hif⟩ := he
  by_cases hmem : dep ∈ paths.eraseDups
  · rw [if_pos hmem] at hif
    obtain rfl : (paths.eraseDups.indexOf dep, paths.eraseDups.indexOf path) = e := by
      injection hif
    exact ⟨List.indexOf_lt_length.mpr hmem, List.indexOf_lt_length.mpr hpath⟩
  · rw [if_neg hmem] at hif
    cases hif

/-! ## Claims -/

/-- C1, code behavior at the failing input.  Two store paths where `a`
depends on `b`: `build_graph_from_paths` records the petgraph edge
`b -> a` (dependency to dependent, index pair `(1, 0)`), `toposort`
succeeds — so the returned order should, per the claim and the code's
own log message "dependencies before dependents", place `b` before `a` —
yet the `.rev()` applied to the already dependencies-first
`petgraph::algo::toposort` output makes `build_and_cache_graph` return
`["a", "b"]`: the dependent strictly precedes its dependency. -/
theorem build_order_puts_dependents_first :
    buildAndCacheGraphOrder ["a", "b"] (fun s => if s = "a" then ["b"] else [])
      = (["a", "b"], false)
    ∧ (buildGraphFromPaths ["a", "b"] (fun s => if s = "a" then ["b"] else [])).2
      = [(1, 0)]
    ∧ List.indexOf "a"
        (buildAndCacheGraphOrder ["a", "b"] (fun s => if s = "a" then ["b"] else [])).1
      < List.indexOf "b"
        (buildAndCacheGraphOrder ["a", "b"] (fun s => if s = "a" then ["b"] else [])).1 := by
  decide

/-- C4.  For every dependency graph containing a cycle, the build does
not fail: it still returns a complete permutation of all discovered
nodes (result length equals node count) and raises the cycle-warning
signal. -/
theorem cycle_fallback_complete_permutation (paths : List String)
    (refs : String → List String)
    (hcyc : HasCycle (buildGraphFromPaths paths refs).2) :
    (buildAndCacheGraphOrder paths refs).2 = true
    ∧ (buildAndCacheGraphOrder paths refs).1.length
        = (buildGraphFromPaths paths refs).1.length
    ∧ (buildAndCacheGraphOrder paths refs).1.Perm (buildGraphFromPaths paths refs).1 := by
  have hends := buildGraphFromPaths_edges_lt paths refs
  have hnone := toposort_none_of_hasCycle (buildGraphFromPaths paths refs).1.length
    (buildGraphFromPaths paths refs).2 hends hcyc
  have hbr : buildAndCacheGraphOrder paths refs
      = (((List.range (buildGraphFromPaths paths refs).1.length).reverse).filterMap
          (fun i => (buildGraphFromPaths paths refs).1[i]?), true) := by
    simp only [buildAndCacheGraphOrder, buildOrderAndWarn]
    rw [hnone]
  have hfm : ((List.range (buildGraphFromPaths paths refs).1.length).reverse).filterMap
      (fun i => (buildGraphFromPaths paths refs).1[i]?)
      = (buildGraphFromPaths paths refs).1.reverse := by
    rw [List.filterMap_reverse, filterMap_getElem_range]
  rw [hbr, hfm]
  exact ⟨rfl, by simp, by simpa using List.reverse_perm (buildGraphFromPaths paths refs).1⟩

/-- Witness for C4: two store paths referencing each other — a two-node
cycle; the build still returns both nodes (a permutation of the node
set) and raises the warning flag. -/
theorem cycle_fallback_complete_permutation_witness :
    HasCycle (buildGraphFromPaths ["a", "b"] (fun s => if s = "a" then ["b"] else ["a"])).2
    ∧ ((buildAndCacheGraphOrder ["a", "b"]
          (fun s => if s = "a" then ["b"] else ["a"])).2 = true
       ∧ (buildAndCacheGraphOrder ["a", "b"]
          (fun s => if s = "a" then ["b"] else ["a"])).1.length
          = (buildGraphFromPaths ["a", "b"]
              (fun s => if s = "a" then ["b"] else ["a"])).1.length
       ∧ (buildAndCacheGraphOrder ["a", "b"]
          (fun s => if s = "a" then ["b"] else ["a"])).1.Perm
          (buildGraphFromPaths ["a", "b"]
            (fun s => if s = "a" then ["b"] else ["a"])).1) :=
  ⟨⟨[0, 1], ⟨by decide, by decide⟩⟩,
   cycle_fallback_complete_permutation ["a", "b"]
     (fun s => if s = "a" then ["b"] else ["a"]) ⟨[0, 1], ⟨by decide, by decide⟩⟩⟩

/-- C2, counterexample.  In a two-chunk download where the chunks
complete strictly one after the other (never more than one worker in
flight), the chunk map retains, before reassembly, the payloads of both
chunks — the whole object — and not merely one chunk's worth: the
completing worker stores its payload into the `chunks` map
(`ChunkStatus::Completed(data)`) and nothing is written to the
destination file until `reassemble_chunks` runs after all chunks
resolve. -/
theorem completed_chunks_buffered_in_memory :
    memUsage 2 (applyCompletions initChunks [(0, [1, 2, 3]), (1, [4, 5, 6])])
      = ([1, 2, 3] : List Nat).length + ([4, 5, 6] : List Nat).length
    ∧ ¬ memUsage 2 (applyCompletions initChunks [(0, [1, 2, 3]), (1, [4, 5, 6])])
          ≤ max ([1, 2, 3] : List Nat).length ([4, 5, 6] : List Nat).length := by
  decide

/-- C2, amended.  A completed chunk's payload is retained in the
in-memory chunk map until every chunk has resolved; `reassemble_chunks`
then writes each completed chunk's payload at its absolute byte offset
`chunk_idx * chunk_size` (seek-write) into the destination, so the
reassembled output is the same for every order in which the chunks
completed — but the whole object is buffered in memory before
reassembly, not at most one chunk per in-flight worker. -/
theorem reassembly_offset_writes_order_independent
    (num cs : Nat) (events events' : List (Nat × List Nat)) (out : List Nat)
    (hperm : events.Perm events')
    (hnodup : (events.map Prod.fst).Nodup)
    (hev : ∀ e ∈ events, (e.2 : List Nat).length ≤ cs)
    (hok : reassembleChunks num cs (applyCompletions initChunks events) = .ok out) :
    reassembleChunks num cs (applyCompletions initChunks events') = .ok out
    ∧ ∀ i, i < num → ∀ data,
        applyCompletions initChunks events i = .completed data →
        sliceAt out (i * cs) data.length = data := by
  have hcs : ∀ i data,
      applyCompletions initChunks events i = .completed data → data.length ≤ cs := by
    intro i data h
    rcases applyCompletions_completed_mem events initChunks i data h with hmem | hinit
    · exact hev _ hmem
    · exact absurd hinit (by simp [initChunks])
  constructor
  · rw [← applyCompletions_perm hperm initChunks hnodup]
    exact hok
  · intro i hi data hd
    have hrun : reassembleGo cs (applyCompletions initChunks events) [] (List.range' 0 num)
        = .ok out := by
      rw [← List.range_eq_range']
      exact hok
    have hspec := reassembleGo_spec cs (applyCompletions initChunks events) hcs num 0 [] out
      (by simp) hrun
    exact hspec.2 i (by simp [List.mem_range']; omega) data hd

/-- Witness for C2 (amended): a two-chunk transfer whose chunks complete
out of order (chunk 1 first) reassembles to the same file as the
in-order completion, each payload sitting at its absolute offset. -/
theorem reassembly_offset_writes_order_independent_witness :
    ([((1 : Nat), [4, 5]), (0, [1, 2, 3])] :
        List (Nat × List Nat)).Perm [(0, [1, 2, 3]), (1, [4, 5])]
    ∧ (([((1 : Nat), [4, 5]), (0, [1, 2, 3])] :
        List (Nat × List Nat)).map Prod.fst).Nodup
    ∧ (∀ e ∈ ([((1 : Nat), [4, 5]), (0, [1, 2, 3])] : List (Nat × List Nat)),
        (e.2 : List Nat).length ≤ 4)
    ∧ reassembleChunks 2 4
        (applyCompletions initChunks [((1 : Nat), [4, 5]), (0, [1, 2, 3])])
        = .ok [1, 2, 3, 0, 4, 5]
    ∧ (reassembleChunks 2 4
        (applyCompletions initChunks [((0 : Nat), [1, 2, 3]), (1, [4, 5])])
        = .ok [1, 2, 3, 0, 4, 5]
       ∧ ∀ i, i < 2 → ∀ data,
          applyCompletions initChunks [((1 : Nat), [4, 5]), (0, [1, 2, 3])] i
            = .completed data →
          sliceAt [1, 2, 3, 0, 4, 5] (i * 4) data.length = data) :=
  ⟨by decide, by decide, by decide, by rfl,
   reassembly_offset_writes_order_independent 2 4
     [((1 : Nat), [4, 5]), (0, [1, 2, 3])] [(0, [1, 2, 3]), (1, [4, 5])]
     [1, 2, 3, 0, 4, 5] (by decide) (by decide) (by decide) (by rfl)⟩

/-- C3.  For every stored cache file whose contents fail both the CBOR
decode and the JSON fallback decode, `load` deletes the file and returns
`None` (the file no longer exists afterward), and the decode failure is
not surfaced as an error result. -/
theorem load_self_heals_on_corruption (fs : FS) (p : String) (g : Nat)
    (h : fs p = some (.garbage g)) :
    (DependencyCache.load fs p).1 = .ok none
    ∧ (DependencyCache.load fs p).2 p = none := by
  simp [DependencyCache.load, h, cborDecode, jsonDecode, fsRemove]

/-- Witness for C3: a filesystem holding one corrupted cache file. -/
theorem load_self_heals_on_corruption_witness :
    (fun q => if q = "deps-x.cbor" then some (FileData.garbage 7) else none)
        "deps-x.cbor" = some (FileData.garbage 7)
    ∧ ((DependencyCache.load
          (fun q => if q = "deps-x.cbor" then some (FileData.garbage 7) else none)
          "deps-x.cbor").1 = .ok none
       ∧ (DependencyCache.load
          (fun q => if q = "deps-x.cbor" then some (FileData.garbage 7) else none)
          "deps-x.cbor").2 "deps-x.cbor" = none) :=
  ⟨by decide, load_self_heals_on_corruption _ _ 7 (by decide)⟩

/-- C5.  The fingerprint over a list of artifact identifiers is
deterministic and order-independent — permuted inputs hash to the same
value — and the output has the fixed width of 16 hex characters (8
digest bytes). -/
theorem hash_derivations_order_independent (l l' : List String) (h : l.Perm l') :
    hash_derivations l = hash_derivations l'
    ∧ (hash_derivations l).length = 16 := by
  constructor
  · unfold hash_derivations hashInput
    rw [sortStrings_eq_of_perm h]
  · have h32 := sha256_length (hashInput l)
    rw [hash_derivations, hexEncode_length, List.length_take, h32]
    norm_num

/-- Witness for C5: the spec's own example,
`fingerprint(["b","a"]) == fingerprint(["a","b"])`. -/
theorem hash_derivations_order_independent_witness :
    (["b", "a"] : List String).Perm ["a", "b"]
    ∧ (hash_derivations ["b", "a"] = hash_derivations ["a", "b"]
       ∧ (hash_derivations ["b", "a"]).length = 16) :=
  ⟨by decide, hash_derivations_order_independent _ _ (by decide)⟩

/-- C6.  Save/load round-trip: after a (successful) `save` of record `r`
to a path, `load` of that path returns `Some r` — the very same record,
all fields equal. -/
theorem save_load_roundtrip (fs : FS) (p : String) (r : DependencyCache) :
    (DependencyCache.load (r.save fs p) p).1 = .ok (some r)
    ∧ (DependencyCache.load (r.save fs p) p).2 = r.save fs p := by
  have hp : (r.save fs p) p = some (.cborBytes r) := by
    simp [DependencyCache.save, fsRename, fsWrite]
  simp [DependencyCache.load, hp, cborDecode]

/-- C7.  The transfer partitions the interval from 0 to `total_size`
into exactly the ceiling of `total_size / chunk_size` contiguous chunks:
chunk 0 starts at byte 0, consecutive chunks abut, the last chunk ends
at the last byte, every byte lies in exactly the chunk indexed by its
quotient by the chunk size, and the final chunk is shorter exactly when
`total_size` is not a multiple of the chunk size. -/
theorem chunk_partition (total : Nat) (h : 0 < total) :
    numChunks total = total / CHUNK_SIZE + (if total % CHUNK_SIZE = 0 then 0 else 1)
    ∧ chunkStart 0 = 0
    ∧ (∀ i, i + 1 < numChunks total → chunkEnd total i + 1 = chunkStart (i + 1))
    ∧ chunkEnd total (numChunks total - 1) = total - 1
    ∧ (∀ b, b < total →
        b / CHUNK_SIZE < numChunks total
        ∧ chunkStart (b / CHUNK_SIZE) ≤ b
        ∧ b ≤ chunkEnd total (b / CHUNK_SIZE)
        ∧ ∀ i, i < numChunks total → chunkStart i ≤ b → b ≤ chunkEnd total i →
            i = b / CHUNK_SIZE)
    ∧ (total % CHUNK_SIZE ≠ 0 →
        chunkLen total (numChunks total - 1) = total % CHUNK_SIZE
        ∧ chunkLen total (numChunks total - 1) < CHUNK_SIZE)
    ∧ (total % CHUNK_SIZE = 0 → chunkLen total (numChunks total - 1) = CHUNK_SIZE) := by
  refine ⟨?_, ?_, fun i hi => ?_, ?_,
    fun b hb => ⟨?_, ?_, ?_, fun i h1 h2 h3 => ?_⟩,
    fun hm => ⟨?_, ?_⟩, fun hm => ?_⟩ <;>
    simp only [numChunks, chunkStart, chunkEnd, chunkLen, CHUNK_SIZE] at * <;>
    first
    | (split <;> omega)
    | omega

/-- Witness for C7: the spec's concrete case `total_size = 10_000_000`,
`chunk_size = 4_194_304`: three chunks, the last covering bytes
8_388_608 through 9_999_999. -/
theorem chunk_partition_witness :
    (0 < 10000000
     ∧ (numChunks 10000000
          = 10000000 / CHUNK_SIZE + (if 10000000 % CHUNK_SIZE = 0 then 0 else 1)
        ∧ chunkStart 0 = 0
        ∧ (∀ i, i + 1 < numChunks 10000000 →
             chunkEnd 10000000 i + 1 = chunkStart (i + 1))
        ∧ chunkEnd 10000000 (numChunks 10000000 - 1) = 10000000 - 1
        ∧ (∀ b, b < 10000000 →
            b / CHUNK_SIZE < numChunks 10000000
            ∧ chunkStart (b / CHUNK_SIZE) ≤ b
            ∧ b ≤ chunkEnd 10000000 (b / CHUNK_SIZE)
            ∧ ∀ i, i < numChunks 10000000 → chunkStart i ≤ b →
                b ≤ chunkEnd 10000000 i → i = b / CHUNK_SIZE)
        ∧ (10000000 % CHUNK_SIZE ≠ 0 →
            chunkLen 10000000 (numChunks 10000000 - 1) = 10000000 % CHUNK_SIZE
            ∧ chunkLen 10000000 (numChunks 10000000 - 1) < CHUNK_SIZE)
        ∧ (10000000 % CHUNK_SIZE = 0 →
            chunkLen 10000000 (numChunks 10000000 - 1) = CHUNK_SIZE)))
    ∧ numChunks 10000000 = 3
    ∧ chunkStart 2 = 8388608
    ∧ chunkEnd 10000000 2 = 9999999 :=
  ⟨⟨by norm_num, chunk_partition 10000000 (by norm_num)⟩,
   by norm_num [numChunks, CHUNK_SIZE],
   by norm_num [chunkStart, CHUNK_SIZE],
   by norm_num [chunkEnd, chunkStart, CHUNK_SIZE]⟩

/-- C9.  The batch runner returns exactly one result per task — the
result list (in whatever completion order `buffer_unordered` yields it)
has the batch's length — and every task's own result, determined solely
by that task's outcome, is present: a failing or timed-out task never
prevents the others from reporting their own results. -/
theorem upload_parallel_one_result_per_task (timeout_secs : Nat)
    (tasks : List UploadTask) (outcome : UploadTask → TaskOutcome)
    (dur : UploadTask → Nat) (results : List UploadResult)
    (h : results.Perm (uploadParallel timeout_secs tasks outcome dur)) :
    results.length = tasks.length
    ∧ ∀ t ∈ tasks, mkUploadResult timeout_secs t (outcome t) (dur t) ∈ results := by
  rw [uploadParallel_eq_map] at h
  refine ⟨by rw [h.length_eq, List.length_map], fun t ht => ?_⟩
  exact h.mem_iff.mpr (List.mem_map_of_mem _ ht)

/-- Witness for C9: a two-task batch in which the first task always
fails; the second still reports `Success`, and there is one result per
task. -/
theorem upload_parallel_one_result_per_task_witness :
    (uploadParallel 300 [⟨"p1", "c", "u", "t"⟩, ⟨"p2", "c", "u", "t"⟩]
        (fun t => if t.store_path = "p1" then .err "boom" else .ok)
        (fun _ => 1)).Perm
      (uploadParallel 300 [⟨"p1", "c", "u", "t"⟩, ⟨"p2", "c", "u", "t"⟩]
        (fun t => if t.store_path = "p1" then .err "boom" else .ok)
        (fun _ => 1))
    ∧ (uploadParallel 300 [⟨"p1", "c", "u", "t"⟩, ⟨"p2", "c", "u", "t"⟩]
        (fun t => if t.store_path = "p1" then .err "boom" else .ok)
        (fun _ => 1)).length = 2
    ∧ (⟨"p2", true, none, 1⟩ : UploadResult) ∈
        uploadParallel 300 [⟨"p1", "c", "u", "t"⟩, ⟨"p2", "c", "u", "t"⟩]
          (fun t => if t.store_path = "p1" then .err "boom" else .ok)
          (fun _ => 1) := by
  have main := upload_parallel_one_result_per_task 300
    [⟨"p1", "c", "u", "t"⟩, ⟨"p2", "c", "u", "t"⟩]
    (fun t => if t.store_path = "p1" then .err "boom" else .ok)
    (fun _ => 1) _ (List.Perm.refl _)
  refine ⟨List.Perm.refl _, main.1, ?_⟩
  have h2 := main.2 ⟨"p2", "c", "u", "t"⟩ (by decide)
  simpa [mkUploadResult] using h2

/-- C10.  The `total_size = 0` edge case is safe: `new` computes zero
chunks, the download loop iterates over an empty chunk list (so the
`total_size - 1` offset arithmetic is never evaluated), and `progress`
guards its division, returning 0 instead of dividing by zero. -/
theorem zero_total_size_safe :
    numChunks 0 = 0
    ∧ chunkRanges 0 = []
    ∧ ∀ bytes_downloaded, progress 0 bytes_downloaded = 0 := by
  have h0 : numChunks 0 = 0 := by norm_num [numChunks, CHUNK_SIZE]
  exact ⟨h0, by simp [chunkRanges, h0], fun d => by simp [progress]⟩

/-- C8.  The congestion adjustment step is a no-op below 10 samples.
With enough samples and an established baseline `b`: if the recent
average exceeds `2 * b` the limit shrinks by 20% but never below the
floor of 5 (and holds if it is already at or below 5); if the recent
average is below `1.5 * b` the limit grows by the fixed step of 5 but
never above the download ceiling of 500 (and holds if already at or
above 500); otherwise the state is unchanged. -/
theorem adjust_concurrency_behavior (st : ThrottlerState) :
    (st.latencies.length < 10 → adjustConcurrency st = st)
    ∧ ∀ b, st.baseline_latency = some b → 10 ≤ st.latencies.length →
        ((b * 2 < recentAvg st.latencies → 5 < st.max_concurrent →
            (adjustConcurrency st).max_concurrent = max 5 (st.max_concurrent * 4 / 5)
            ∧ 5 ≤ (adjustConcurrency st).max_concurrent
            ∧ (adjustConcurrency st).max_concurrent < st.max_concurrent)
         ∧ (b * 2 < recentAvg st.latencies → st.max_concurrent ≤ 5 →
            adjustConcurrency st = st)
         ∧ (2 * recentAvg st.latencies < 3 * b → st.max_concurrent < 500 →
            (adjustConcurrency st).max_concurrent = min 500 (st.max_concurrent + 5)
            ∧ (adjustConcurrency st).max_concurrent ≤ 500
            ∧ st.max_concurrent < (adjustConcurrency st).max_concurrent)
         ∧ (2 * recentAvg st.latencies < 3 * b → 500 ≤ st.max_concurrent →
            adjustConcurrency st = st)
         ∧ (recentAvg st.latencies ≤ b * 2 → 3 * b ≤ 2 * recentAvg st.latencies →
            adjustConcurrency st = st)) := by
  obtain ⟨lat, base, mc⟩ := st
  constructor
  · intro hlen
    simp [adjustConcurrency, hlen]
  · rintro b rfl hlen
    dsimp only at hlen ⊢
    have hnot : ¬ lat.length < 10 := by omega
    refine ⟨fun hcong hmc => ?_, fun hcong hmc => ?_, fun hgood hmc => ?_,
      fun hgood hmc => ?_, fun h1 h2 => ?_⟩ <;>
      simp only [adjustConcurrency, hnot, if_false, Option.getD_some] <;>
      split_ifs <;> simp_all <;> omega

/-- Witness for C8: with 9 samples the step is a no-op; with baseline
400ns and limit 50, a congested stream (average 1000 over 2 times 400)
shrinks 50 to 40, a fast stream (average 100 below 1.5 times 400) grows
50 to 55, and an in-between stream (average 700) holds the state. -/
theorem adjust_concurrency_behavior_witness :
    adjustConcurrency ⟨[5], none, 50⟩ = ⟨[5], none, 50⟩
    ∧ (adjustConcurrency ⟨List.replicate 10 1000, some 400, 50⟩).max_concurrent = 40
    ∧ (adjustConcurrency ⟨List.replicate 10 100, some 400, 50⟩).max_concurrent = 55
    ∧ adjustConcurrency ⟨List.replicate 10 700, some 400, 50⟩
        = ⟨List.replicate 10 700, some 400, 50⟩ := by
  refine ⟨(adjust_concurrency_behavior _).1 (by decide), ?_, ?_, ?_⟩
  · have h := (((adjust_concurrency_behavior
        ⟨List.replicate 10 1000, some 400, 50⟩).2 400 rfl (by decide)).1
        (by decide) (by decide)).1
    rw [h]
    decide
  · have h := ((((adjust_concurrency_behavior
        ⟨List.replicate 10 100, some 400, 50⟩).2 400 rfl (by decide)).2.2).1
        (by decide) (by decide)).1
    rw [h]
    decide
  · exact (((adjust_concurrency_behavior
        ⟨List.replicate 10 700, some 400, 50⟩).2 400 rfl (by decide)).2.2.2.2)
        (by decide) (by decide)

end FlakeCache
